import Mathlib

/-!
Shallow embedding of the `zombiezen/clock` repository's `fakeclock` package
(`src/fakeclock/fakeclock.go`).

Instants and durations are modelled as `Int` (Go `time.Time` / `time.Duration`
under addition and comparison).  A timer or ticker channel is a one-slot
buffer, modelled as `Option Int`: a non-blocking send fills an empty slot and
is dropped on a full one.  Go's heap-allocated `*timer` / `*ticker` handles are
modelled by natural-number ids; the clock state carries the id-indexed stores
(`timerOf`, `tickerOf`) together with the pending id lists (`timers`,
`tickers`) that mirror the Go slices.  Panics are modelled as `none` results.
-/

/-- Non-blocking send on a one-slot channel: `select { case c <- v: default: }`.
The value is stored when the slot is empty and dropped when it is full. -/
def chanSend (c : Option Int) (v : Int) : Option Int :=
  match c with
  | none => some v
  | some w => some w

/-- The mutable part of a Go `timer`: target instant, fired flag, channel. -/
structure Timer where
  time : Int
  fired : Bool
  chan : Option Int
  deriving DecidableEq

/-- `timer.fire`: attempt a non-blocking send of `now`, then mark fired. -/
def Timer.fire (tm : Timer) (now : Int) : Timer :=
  ⟨tm.time, true, chanSend tm.chan now⟩

/-- `timer.update`: fire the timer when it is unfired and due; the `Bool` is
the Go `done` result (true exactly when the timer fired in this call). -/
def Timer.update (tm : Timer) (now : Int) : Timer × Bool :=
  if tm.fired ∨ now < tm.time then (tm, false) else (tm.fire now, true)

/-- `timer.init`: arm the timer for `now + d` when `d > 0`, otherwise set its
target to `now` and fire immediately.  The `Bool` is Go's `!t.fired` result
(true exactly when the timer is left pending). -/
def Timer.init (tm : Timer) (now d : Int) : Timer × Bool :=
  if 0 < d then (⟨now + d, false, tm.chan⟩, true)
  else (Timer.fire ⟨now, tm.fired, tm.chan⟩ now, false)

/-- The mutable part of a Go `ticker`: period, next deadline, channel. -/
structure Ticker where
  d : Int
  next : Int
  chan : Option Int
  deriving DecidableEq

/-- The `for !now.Before(t.next) { t.next = t.next.Add(t.d) }` loop of
`ticker.update`: repeated addition of the period until the deadline passes
`now`.  The `0 < d` conjunct makes the definition total; it is vacuous on
every reachable ticker because `NewTicker` rejects non-positive periods
(in Go a non-positive period would make this loop diverge). -/
def fastForward (next d now : Int) : Int :=
  if _h : next ≤ now ∧ 0 < d then fastForward (next + d) d now else next
termination_by (now + d - next).toNat
decreasing_by
  simp_wf
  omega

/-- `ticker.update`: when due, deliver `now` (non-blocking) and fast-forward
the deadline; the `Int` result is the Go watch argument (`0` when not due,
the period when fired). -/
def Ticker.update (tk : Ticker) (now : Int) : Ticker × Int :=
  if now < tk.next then (tk, 0)
  else (⟨tk.d, fastForward tk.next tk.d now, chanSend tk.chan now⟩, tk.d)

/-- Point update of an id-indexed store. -/
def setFn {α : Type} (f : Nat → α) (k : Nat) (v : α) : Nat → α :=
  fun n => if n = k then v else f n

/-- The loop body of `state.notifyTimers`: update every listed timer in order
(threading the store, as the Go code mutates records in place) and keep, in
order, the ids whose update returned `done = false`. -/
def runTimers (now : Int) (store : Nat → Timer) : List Nat → (Nat → Timer) × List Nat
  | [] => (store, [])
  | tid :: rest =>
    let p := Timer.update (store tid) now
    let r := runTimers now (setFn store tid p.1) rest
    (r.1, if p.2 then r.2 else tid :: r.2)

/-- `ClockState` of the fake clock: current time, pending timer and ticker id
lists, the id-indexed stores, and the next fresh ids (Go pointer identity). -/
structure State where
  t : Int
  timers : List Nat
  tickers : List Nat
  timerOf : Nat → Timer
  tickerOf : Nat → Ticker
  nextTimerId : Nat
  nextTickerId : Nat

/-- `state.notifyTimers`: fire every due pending timer and compact the
pending list in order. -/
def notifyTimers (s : State) : State :=
  let r := runTimers s.t s.timerOf s.timers
  { s with timerOf := r.1, timers := r.2 }

/-- The loop body of `state.notifyTickers`: update every listed ticker in
order, collecting the nonzero watch arguments in iteration order. -/
def runTickers (now : Int) (store : Nat → Ticker) : List Nat → (Nat → Ticker) × List Int
  | [] => (store, [])
  | kid :: rest =>
    let p := Ticker.update (store kid) now
    let r := runTickers now (setFn store kid p.1) rest
    (r.1, if p.2 = 0 then r.2 else p.2 :: r.2)

/-- `state.notifyTickers`: update every pending ticker and return the watch
arguments of those that fired. -/
def notifyTickers (s : State) : State × List Int :=
  let r := runTickers s.t s.tickerOf s.tickers
  ({ s with tickerOf := r.1 }, r.2)

/-- `Clock.do`: run `f` on the state; when it changed the current time, run
`notifyTimers` then `notifyTickers`.  The returned list holds the watch
callback arguments delivered after the lock is released. -/
def Clock.doOp (f : State → State) (s : State) : State × List Int :=
  let s1 := f s
  if s1.t = s.t then (s1, [])
  else
    let s2 := notifyTimers s1
    notifyTickers s2

/-- `Clock.Now`: return the current time and advance it by `step`. -/
def Clock.now (step : Int) (s : State) : Int × State × List Int :=
  (s.t, Clock.doOp (fun x => { x with t := x.t + step }) s)

/-- `Clock.Add`: add `delta` to the current time; panics (`none`) when
`delta` is negative. -/
def Clock.add (delta : Int) (s : State) : Option (State × List Int) :=
  if delta < 0 then none
  else some (Clock.doOp (fun x => { x with t := x.t + delta }) s)

/-- `Clock.Peek`: return the current time without advancing it. -/
def Clock.peek (s : State) : Int × State × List Int :=
  (s.t, Clock.doOp (fun x => x) s)

/-- `Clock.NewTimer`: allocate a fresh timer (zero target, unfired, empty
channel), initialize it with `timer.init`, register it as pending exactly
when `init` left it pending, and record the watch call with argument `d`. -/
def Clock.newTimer (d : Int) (s : State) : Nat × State × List Int :=
  let tid := s.nextTimerId
  let p := Timer.init ⟨0, false, none⟩ s.t d
  ( tid,
    { s with
      timerOf := setFn s.timerOf tid p.1,
      timers := if p.2 then s.timers ++ [tid] else s.timers,
      nextTimerId := tid + 1 },
    [d] )

/-- `Clock.NewTicker`: panics (`none`) on a non-positive period; otherwise
allocates a fresh ticker with deadline `currentTime + d`, registers it, and
records the watch call with argument `d`. -/
def Clock.newTicker (d : Int) (s : State) : Option (Nat × State × List Int) :=
  if d ≤ 0 then none
  else
    let kid := s.nextTickerId
    some ( kid,
      { s with
        tickerOf := setFn s.tickerOf kid ⟨d, s.t + d, none⟩,
        tickers := s.tickers ++ [kid],
        nextTickerId := kid + 1 },
      [d] )

/-- `state.addTimer`: append to the pending list unless already present. -/
def addTimerId (l : List Nat) (tid : Nat) : List Nat :=
  if tid ∈ l then l else l ++ [tid]

/-- `state.removeTimer` / `state.removeTicker`: remove by identity.  A handle
occurs at most once in a reachable pending list, so filtering is the Go
single-occurrence removal. -/
def removeId (l : List Nat) (tid : Nat) : List Nat :=
  l.filter (fun x => x ≠ tid)

/-- `timer.Reset`: re-initialize the timer at the current time, register it
when `init` left it pending and deregister it otherwise, record the watch
call; the `Bool` is Go's `active := !t.fired`, read before the update. -/
def Timer.reset (tid : Nat) (d : Int) (s : State) : Bool × State × List Int :=
  let tm := s.timerOf tid
  let p := Timer.init tm s.t d
  ( !tm.fired,
    { s with
      timerOf := setFn s.timerOf tid p.1,
      timers := if p.2 then addTimerId s.timers tid else removeId s.timers tid },
    [d] )

/-- `timer.Stop`: mark the timer fired and deregister it, through `Clock.do`
(the current time is unchanged, so no notification runs); the `Bool` is
`active := !t.fired` read before the update. -/
def Timer.stop (tid : Nat) (s : State) : Bool × State × List Int :=
  let tm := s.timerOf tid
  let r := Clock.doOp (fun x =>
    { x with
      timerOf := setFn x.timerOf tid ⟨(x.timerOf tid).time, true, (x.timerOf tid).chan⟩,
      timers := removeId x.timers tid }) s
  (!tm.fired, r.1, r.2)

/-- `ticker.Stop`: deregister the ticker, through `Clock.do`. -/
def Ticker.stop (kid : Nat) (s : State) : State × List Int :=
  Clock.doOp (fun x => { x with tickers := removeId x.tickers kid }) s

/-- One call of the public fake-clock API. -/
inductive Op where
  | now : Op
  | peek : Op
  | advance : Int → Op
  | newTimer : Int → Op
  | newTicker : Int → Op
  | resetTimer : Nat → Int → Op
  | stopTimer : Nat → Op
  | stopTicker : Nat → Op
  deriving DecidableEq

/-- Apply one API call to a clock with step `step`.  `none` models a panic.
`resetTimer`, `stopTimer` and `stopTicker` are methods of handles returned by
`newTimer` / `newTicker`; an id that was never allocated names no handle, so
such an op performs no call and leaves the state unchanged. -/
def applyOp (step : Int) (op : Op) (s : State) : Option (State × List Int) :=
  match op with
  | .now => some (Clock.now step s).2
  | .peek => some (Clock.peek s).2
  | .advance delta => Clock.add delta s
  | .newTimer d => some (Clock.newTimer d s).2
  | .newTicker d =>
    match Clock.newTicker d s with
    | none => none
    | some r => some r.2
  | .resetTimer tid d =>
    if tid < s.nextTimerId then some (Timer.reset tid d s).2 else some (s, [])
  | .stopTimer tid =>
    if tid < s.nextTimerId then some (Timer.stop tid s).2 else some (s, [])
  | .stopTicker kid =>
    if kid < s.nextTickerId then some (Ticker.stop kid s) else some (s, [])

/-- Run a sequence of API calls, stopping at the first panic. -/
def runOps (step : Int) : List Op → State → Option State
  | [], s => some s
  | op :: rest, s =>
    match applyOp step op s with
    | none => none
    | some r => runOps step rest r.1

/-- The state built by `New` / `NewWithStep`: time `start`, nothing pending. -/
def mkState (start : Int) : State :=
  ⟨start, [], [], fun _ => ⟨0, false, none⟩, fun _ => ⟨0, 0, none⟩, 0, 0⟩

/-- `NewWithStep`: panics (`none`) on a negative step, otherwise returns the
step together with the initial state. -/
def NewWithStep (start step : Int) : Option (Int × State) :=
  if step < 0 then none else some (step, mkState start)

/-- Run a sequence of `Clock.Add` calls, stopping at the first panic. -/
def advances : List Int → State → Option State
  | [], s => some s
  | a :: rest, s =>
    match Clock.add a s with
    | none => none
    | some r => advances rest r.1

/-- A pending timer is unfired with a target strictly in the future. -/
def timerOk (t : Int) (tm : Timer) : Prop :=
  tm.fired = false ∧ t < tm.time

/-- A pending ticker has a positive period and a deadline strictly in the
future. -/
def tickerOk (t : Int) (tk : Ticker) : Prop :=
  0 < tk.d ∧ t < tk.next

/-- The pending-collection invariant of the clock state. -/
def pendingInv (s : State) : Prop :=
  (∀ tid ∈ s.timers, timerOk s.t (s.timerOf tid)) ∧
  (∀ kid ∈ s.tickers, tickerOk s.t (s.tickerOf kid))

instance (t : Int) (tm : Timer) : Decidable (timerOk t tm) := by
  unfold timerOk; infer_instance

instance (t : Int) (tk : Ticker) : Decidable (tickerOk t tk) := by
  unfold tickerOk; infer_instance

instance (s : State) : Decidable (pendingInv s) := by
  unfold pendingInv; infer_instance

/-- Well-formedness of the handle bookkeeping: pending ids are distinct and
were allocated. -/
def wf (s : State) : Prop :=
  s.timers.Nodup ∧ s.tickers.Nodup ∧
  (∀ tid ∈ s.timers, tid < s.nextTimerId) ∧
  (∀ kid ∈ s.tickers, kid < s.nextTickerId)

/-! ### Basic lemmas about the notification machinery -/

theorem doOp_self (f : State → State) (s : State) (h : (f s).t = s.t) :
    Clock.doOp f s = (f s, []) := by
  simp [Clock.doOp, h]

theorem doOp_ne (f : State → State) (s : State) (h : (f s).t ≠ s.t) :
    Clock.doOp f s = notifyTickers (notifyTimers (f s)) := by
  simp [Clock.doOp, h]

theorem doOp_t (f : State → State) (s : State) :
    ((Clock.doOp f s).1).t = (f s).t := by
  by_cases h : (f s).t = s.t
  · rw [doOp_self f s h]
  · rw [doOp_ne f s h]
    rfl

theorem peek_eq (s : State) : Clock.peek s = (s.t, s, []) := by
  simp [Clock.peek, Clock.doOp]

theorem lt_fastForward (next : Int) {d : Int} (now : Int) (hd : 0 < d) :
    now < fastForward next d now := by
  rw [fastForward]
  split
  · exact lt_fastForward (next + d) now hd
  · omega
termination_by (now + d - next).toNat
decreasing_by
  simp_wf
  omega

theorem runTimers_sublist (now : Int) (store : Nat → Timer) (l : List Nat) :
    ((runTimers now store l).2).Sublist l := by
  induction l generalizing store with
  | nil => simp [runTimers]
  | cons tid rest ih =>
    simp only [runTimers]
    by_cases hp : (Timer.update (store tid) now).2 = true
    · simpa [hp] using (ih (setFn store tid (Timer.update (store tid) now).1)).cons tid
    · simpa [hp] using (ih (setFn store tid (Timer.update (store tid) now).1)).cons₂ tid

theorem runTimers_notMem (now : Int) (store : Nat → Timer) (l : List Nat) (x : Nat)
    (hx : x ∉ l) : (runTimers now store l).1 x = store x := by
  induction l generalizing store with
  | nil => rfl
  | cons tid rest ih =>
    have hx1 : x ≠ tid := fun h => hx (h ▸ List.mem_cons_self tid rest)
    have hx2 : x ∉ rest := fun h => hx (List.mem_cons_of_mem tid h)
    simp only [runTimers]
    rw [ih (setFn store tid (Timer.update (store tid) now).1) hx2]
    simp [setFn, hx1]

theorem runTimers_ok (now : Int) (store : Nat → Timer) (l : List Nat)
    (hnd : l.Nodup) (hf : ∀ tid ∈ l, (store tid).fired = false) :
    ∀ tid ∈ (runTimers now store l).2,
      ((runTimers now store l).1 tid).fired = false ∧
      now < ((runTimers now store l).1 tid).time := by
  induction l generalizing store with
  | nil => simp [runTimers]
  | cons hd rest ih =>
    have hnd2 : rest.Nodup := (List.nodup_cons.mp hnd).2
    have hhd : hd ∉ rest := (List.nodup_cons.mp hnd).1
    have hhdf : (store hd).fired = false := hf hd (List.mem_cons_self hd rest)
    have hf2 : ∀ x ∈ rest,
        ((setFn store hd (Timer.update (store hd) now).1) x).fired = false := by
      intro x hx
      have hxh : x ≠ hd := fun h => hhd (h ▸ hx)
      simp only [setFn, if_neg hxh]
      exact hf x (List.mem_cons_of_mem hd hx)
    by_cases hdue : now < (store hd).time
    · have hp : Timer.update (store hd) now = (store hd, false) := by
        simp [Timer.update, hhdf, hdue]
      simp only [runTimers, hp]
      intro tid htid
      rcases List.mem_cons.mp htid with h1 | h1
      · subst h1
        rw [runTimers_notMem now _ rest tid (by simpa [hp] using hhd)]
        simp only [setFn, if_pos rfl]
        exact ⟨hhdf, hdue⟩
      · exact ih (setFn store hd (store hd)) hnd2 (by simpa [hp] using hf2) tid h1
    · have hp : Timer.update (store hd) now = ((store hd).fire now, true) := by
        simp [Timer.update, hhdf, hdue]
      simp only [runTimers, hp]
      intro tid htid
      exact ih (setFn store hd ((store hd).fire now)) hnd2 (by simpa [hp] using hf2) tid
        (by simpa using htid)

theorem runTickers_notMem (now : Int) (store : Nat → Ticker) (l : List Nat) (x : Nat)
    (hx : x ∉ l) : (runTickers now store l).1 x = store x := by
  induction l generalizing store with
  | nil => rfl
  | cons kid rest ih =>
    have hx1 : x ≠ kid := fun h => hx (h ▸ List.mem_cons_self kid rest)
    have hx2 : x ∉ rest := fun h => hx (List.mem_cons_of_mem kid h)
    simp only [runTickers]
    rw [ih (setFn store kid (Ticker.update (store kid) now).1) hx2]
    simp [setFn, hx1]

theorem runTickers_ok (now : Int) (store : Nat → Ticker) (l : List Nat)
    (hnd : l.Nodup) (hpos : ∀ kid ∈ l, 0 < (store kid).d) :
    ∀ kid ∈ l, 0 < ((runTickers now store l).1 kid).d ∧
      now < ((runTickers now store l).1 kid).next := by
  induction l generalizing store with
  | nil => simp
  | cons hd rest ih =>
    have hnd2 : rest.Nodup := (List.nodup_cons.mp hnd).2
    have hhd : hd ∉ rest := (List.nodup_cons.mp hnd).1
    have hhdp : 0 < (store hd).d := hpos hd (List.mem_cons_self hd rest)
    have hupd : 0 < (Ticker.update (store hd) now).1.d ∧
        now < (Ticker.update (store hd) now).1.next := by
      by_cases h1 : now < (store hd).next
      · simp only [Ticker.update, if_pos h1]
        exact ⟨hhdp, h1⟩
      · simp only [Ticker.update, if_neg h1]
        exact ⟨hhdp, lt_fastForward (store hd).next now hhdp⟩
    have hp2 : ∀ x ∈ rest,
        0 < ((setFn store hd (Ticker.update (store hd) now).1) x).d := by
      intro x hx
      have hxh : x ≠ hd := fun h => hhd (h ▸ hx)
      simp only [setFn, if_neg hxh]
      exact hpos x (List.mem_cons_of_mem hd hx)
    intro kid hkid
    rcases List.mem_cons.mp hkid with h1 | h1
    · subst h1
      simp only [runTickers]
      rw [runTickers_notMem now _ rest kid hhd]
      simpa only [setFn, if_pos rfl] using hupd
    · simpa only [runTickers] using
        ih (setFn store hd (Ticker.update (store hd) now).1) hnd2 hp2 kid h1

/-! ### Preservation of the pending-collection invariant -/

theorem nodup_append_singleton {l : List Nat} {a : Nat} (hl : l.Nodup) (ha : a ∉ l) :
    (l ++ [a]).Nodup := by
  rw [List.nodup_append]
  exact ⟨hl, List.nodup_singleton a, by simpa [List.disjoint_singleton] using ha⟩

theorem addTime_good (c : Int) (s : State) (hwf : wf s) (hinv : pendingInv s) :
    wf (Clock.doOp (fun x => { x with t := x.t + c }) s).1 ∧
    pendingInv (Clock.doOp (fun x => { x with t := x.t + c }) s).1 := by
  by_cases h : s.t + c = s.t
  · rw [doOp_self _ _ (show (({ s with t := s.t + c } : State)).t = s.t from h)]
    refine ⟨hwf, fun tid ht => ?_, fun kid hk => ?_⟩
    · show timerOk (s.t + c) (s.timerOf tid)
      rw [h]
      exact hinv.1 tid ht
    · show tickerOk (s.t + c) (s.tickerOf kid)
      rw [h]
      exact hinv.2 kid hk
  · rw [doOp_ne _ _ (show (({ s with t := s.t + c } : State)).t ≠ s.t from h)]
    show wf (State.mk (s.t + c) (runTimers (s.t + c) s.timerOf s.timers).2 s.tickers
        (runTimers (s.t + c) s.timerOf s.timers).1
        (runTickers (s.t + c) s.tickerOf s.tickers).1 s.nextTimerId s.nextTickerId) ∧
      pendingInv (State.mk (s.t + c) (runTimers (s.t + c) s.timerOf s.timers).2 s.tickers
        (runTimers (s.t + c) s.timerOf s.timers).1
        (runTickers (s.t + c) s.tickerOf s.tickers).1 s.nextTimerId s.nextTickerId)
    refine ⟨⟨?_, hwf.2.1, ?_, hwf.2.2.2⟩, ?_, ?_⟩
    · exact List.Nodup.sublist (runTimers_sublist (s.t + c) s.timerOf s.timers) hwf.1
    · intro tid ht
      exact hwf.2.2.1 tid ((runTimers_sublist (s.t + c) s.timerOf s.timers).subset ht)
    · intro tid ht
      exact runTimers_ok (s.t + c) s.timerOf s.timers hwf.1
        (fun x hx => (hinv.1 x hx).1) tid ht
    · intro kid hk
      exact runTickers_ok (s.t + c) s.tickerOf s.tickers hwf.2.1
        (fun x hx => (hinv.2 x hx).1) kid hk

theorem timerOk_arm (t d : Int) (c : Option Int) (hd : 0 < d) :
    timerOk t ⟨t + d, false, c⟩ := by
  refine ⟨rfl, ?_⟩
  show t < t + d
  omega

theorem tickerOk_new (t d : Int) (hd : 0 < d) : tickerOk t ⟨d, t + d, none⟩ := by
  refine ⟨hd, ?_⟩
  show t < t + d
  omega

theorem mem_append_lt {l : List Nat} {n : Nat} (h : ∀ x ∈ l, x < n) :
    ∀ x ∈ l ++ [n], x < n + 1 := by
  intro x hx
  rcases List.mem_append.mp hx with h1 | h1
  · exact Nat.lt_succ_of_lt (h x h1)
  · simp only [List.mem_singleton] at h1
    subst h1
    exact Nat.lt_succ_self x

theorem applyOp_good (step : Int) (op : Op) (s : State) (r : State × List Int)
    (hwf : wf s) (hinv : pendingInv s) (h : applyOp step op s = some r) :
    wf r.1 ∧ pendingInv r.1 := by
  cases op with
  | now =>
    simp only [applyOp, Clock.now, Option.some.injEq] at h
    subst h
    exact addTime_good step s hwf hinv
  | peek =>
    simp only [applyOp, peek_eq, Option.some.injEq] at h
    subst h
    exact ⟨hwf, hinv⟩
  | advance delta =>
    simp only [applyOp, Clock.add] at h
    split at h
    · exact Option.noConfusion h
    · simp only [Option.some.injEq] at h
      subst h
      exact addTime_good delta s hwf hinv
  | newTimer d =>
    simp only [applyOp, Option.some.injEq] at h
    subst h
    by_cases hd : 0 < d
    · have hts : (Clock.newTimer d s).2.1 = State.mk s.t (s.timers ++ [s.nextTimerId])
          s.tickers (setFn s.timerOf s.nextTimerId ⟨s.t + d, false, none⟩) s.tickerOf
          (s.nextTimerId + 1) s.nextTickerId := by
        simp [Clock.newTimer, Timer.init, hd]
      rw [hts]
      have hfresh : s.nextTimerId ∉ s.timers :=
        fun hmem => absurd (hwf.2.2.1 _ hmem) (by omega)
      refine ⟨⟨?_, hwf.2.1, ?_, hwf.2.2.2⟩, ?_, fun kid hk => hinv.2 kid hk⟩
      · exact nodup_append_singleton hwf.1 hfresh
      · exact mem_append_lt hwf.2.2.1
      · intro tid ht
        rcases List.mem_append.mp ht with h1 | h1
        · have hne : tid ≠ s.nextTimerId := fun he => hfresh (he ▸ h1)
          show timerOk s.t (setFn s.timerOf s.nextTimerId ⟨s.t + d, false, none⟩ tid)
          simp only [setFn, if_neg hne]
          exact hinv.1 tid h1
        · simp only [List.mem_singleton] at h1
          subst h1
          show timerOk s.t (setFn s.timerOf s.nextTimerId ⟨s.t + d, false, none⟩ s.nextTimerId)
          simp only [setFn, if_pos rfl]
          exact timerOk_arm s.t d none hd
    · have hts : (Clock.newTimer d s).2.1 = State.mk s.t s.timers
          s.tickers (setFn s.timerOf s.nextTimerId ⟨s.t, true, some s.t⟩) s.tickerOf
          (s.nextTimerId + 1) s.nextTickerId := by
        simp [Clock.newTimer, Timer.init, hd, Timer.fire, chanSend]
      rw [hts]
      refine ⟨⟨hwf.1, hwf.2.1, ?_, hwf.2.2.2⟩, ?_, fun kid hk => hinv.2 kid hk⟩
      · intro x hx
        exact Nat.lt_succ_of_lt (hwf.2.2.1 x hx)
      · intro tid ht
        have hne : tid ≠ s.nextTimerId := by
          intro he
          exact absurd (hwf.2.2.1 tid ht) (by omega)
        show timerOk s.t (setFn s.timerOf s.nextTimerId ⟨s.t, true, some s.t⟩ tid)
        simp only [setFn, if_neg hne]
        exact hinv.1 tid ht
  | newTicker d =>
    by_cases hd : d ≤ 0
    · simp only [applyOp, Clock.newTicker, if_pos hd] at h
      exact Option.noConfusion h
    · simp only [applyOp, Clock.newTicker, if_neg hd, Option.some.injEq] at h
      subst h
      have hdpos : 0 < d := by omega
      have hfresh : s.nextTickerId ∉ s.tickers :=
        fun hmem => absurd (hwf.2.2.2 _ hmem) (by omega)
      refine ⟨⟨hwf.1, ?_, hwf.2.2.1, ?_⟩, fun tid ht => hinv.1 tid ht, ?_⟩
      · exact nodup_append_singleton hwf.2.1 hfresh
      · exact mem_append_lt hwf.2.2.2
      · intro kid hk
        rcases List.mem_append.mp hk with h1 | h1
        · have hne : kid ≠ s.nextTickerId := fun he => hfresh (he ▸ h1)
          show tickerOk s.t (setFn s.tickerOf s.nextTickerId ⟨d, s.t + d, none⟩ kid)
          simp only [setFn, if_neg hne]
          exact hinv.2 kid h1
        · simp only [List.mem_singleton] at h1
          subst h1
          show tickerOk s.t (setFn s.tickerOf s.nextTickerId ⟨d, s.t + d, none⟩ s.nextTickerId)
          simp only [setFn, if_pos rfl]
          exact tickerOk_new s.t d hdpos
  | resetTimer tid d =>
    simp only [applyOp] at h
    split at h
    case isTrue hlt =>
      simp only [Option.some.injEq] at h
      subst h
      by_cases hd : 0 < d
      · by_cases hmem : tid ∈ s.timers
        · have hts : (Timer.reset tid d s).2.1 = State.mk s.t s.timers s.tickers
              (setFn s.timerOf tid ⟨s.t + d, false, (s.timerOf tid).chan⟩) s.tickerOf
              s.nextTimerId s.nextTickerId := by
            simp [Timer.reset, Timer.init, hd, addTimerId, hmem]
          rw [hts]
          refine ⟨⟨hwf.1, hwf.2.1, hwf.2.2.1, hwf.2.2.2⟩, ?_, fun kid hk => hinv.2 kid hk⟩
          intro x hx
          by_cases hxt : x = tid
          · subst hxt
            show timerOk s.t (setFn s.timerOf x ⟨s.t + d, false, (s.timerOf x).chan⟩ x)
            simp only [setFn, if_pos rfl]
            exact timerOk_arm s.t d (s.timerOf x).chan hd
          · show timerOk s.t (setFn s.timerOf tid ⟨s.t + d, false, (s.timerOf tid).chan⟩ x)
            simp only [setFn, if_neg hxt]
            exact hinv.1 x hx
        · have hts : (Timer.reset tid d s).2.1 = State.mk s.t (s.timers ++ [tid]) s.tickers
              (setFn s.timerOf tid ⟨s.t + d, false, (s.timerOf tid).chan⟩) s.tickerOf
              s.nextTimerId s.nextTickerId := by
            simp [Timer.reset, Timer.init, hd, addTimerId, hmem]
          rw [hts]
          refine ⟨⟨?_, hwf.2.1, ?_, hwf.2.2.2⟩, ?_, fun kid hk => hinv.2 kid hk⟩
          · exact nodup_append_singleton hwf.1 hmem
          · intro x hx
            rcases List.mem_append.mp hx with h1 | h1
            · exact hwf.2.2.1 x h1
            · simp only [List.mem_singleton] at h1
              subst h1
              exact hlt
          · intro x hx
            by_cases hxt : x = tid
            · subst hxt
              show timerOk s.t (setFn s.timerOf x ⟨s.t + d, false, (s.timerOf x).chan⟩ x)
              simp only [setFn, if_pos rfl]
              exact timerOk_arm s.t d (s.timerOf x).chan hd
            · have hxl : x ∈ s.timers := by
                rcases List.mem_append.mp hx with h1 | h1
                · exact h1
                · simp only [List.mem_singleton] at h1
                  exact absurd h1 hxt
              show timerOk s.t (setFn s.timerOf tid ⟨s.t + d, false, (s.timerOf tid).chan⟩ x)
              simp only [setFn, if_neg hxt]
              exact hinv.1 x hxl
      · have hts : (Timer.reset tid d s).2.1 = State.mk s.t (removeId s.timers tid) s.tickers
            (setFn s.timerOf tid ⟨s.t, true, chanSend (s.timerOf tid).chan s.t⟩) s.tickerOf
            s.nextTimerId s.nextTickerId := by
          simp [Timer.reset, Timer.init, hd, Timer.fire]
        rw [hts]
        refine ⟨⟨?_, hwf.2.1, ?_, hwf.2.2.2⟩, ?_, fun kid hk => hinv.2 kid hk⟩
        · exact hwf.1.filter _
        · intro x hx
          exact hwf.2.2.1 x (List.mem_of_mem_filter hx)
        · intro x hx
          have hxl := List.mem_of_mem_filter hx
          have hxt : x ≠ tid := by simpa using List.of_mem_filter hx
          show timerOk s.t
            (setFn s.timerOf tid ⟨s.t, true, chanSend (s.timerOf tid).chan s.t⟩ x)
          simp only [setFn, if_neg hxt]
          exact hinv.1 x hxl
    case isFalse =>
      simp only [Option.some.injEq] at h
      subst h
      exact ⟨hwf, hinv⟩
  | stopTimer tid =>
    simp only [applyOp] at h
    split at h
    case isTrue hlt =>
      simp only [Option.some.injEq] at h
      subst h
      have hts : (Timer.stop tid s).2.1 = State.mk s.t (removeId s.timers tid) s.tickers
          (setFn s.timerOf tid ⟨(s.timerOf tid).time, true, (s.timerOf tid).chan⟩) s.tickerOf
          s.nextTimerId s.nextTickerId := by
        simp only [Timer.stop]
        rw [doOp_self _ _ rfl]
      rw [hts]
      refine ⟨⟨?_, hwf.2.1, ?_, hwf.2.2.2⟩, ?_, fun kid hk => hinv.2 kid hk⟩
      · exact hwf.1.filter _
      · intro x hx
        exact hwf.2.2.1 x (List.mem_of_mem_filter hx)
      · intro x hx
        have hxl := List.mem_of_mem_filter hx
        have hxt : x ≠ tid := by simpa using List.of_mem_filter hx
        show timerOk s.t
          (setFn s.timerOf tid ⟨(s.timerOf tid).time, true, (s.timerOf tid).chan⟩ x)
        simp only [setFn, if_neg hxt]
        exact hinv.1 x hxl
    case isFalse =>
      simp only [Option.some.injEq] at h
      subst h
      exact ⟨hwf, hinv⟩
  | stopTicker kid =>
    simp only [applyOp] at h
    split at h
    case isTrue hlt =>
      simp only [Option.some.injEq] at h
      subst h
      have hts : (Ticker.stop kid s) = (State.mk s.t s.timers (removeId s.tickers kid)
          s.timerOf s.tickerOf s.nextTimerId s.nextTickerId, []) := by
        unfold Ticker.stop
        rw [doOp_self _ _ rfl]
      rw [hts]
      refine ⟨⟨hwf.1, ?_, hwf.2.2.1, ?_⟩, fun tid ht => hinv.1 tid ht, ?_⟩
      · exact hwf.2.1.filter _
      · intro x hx
        exact hwf.2.2.2 x (List.mem_of_mem_filter hx)
      · intro x hx
        exact hinv.2 x (List.mem_of_mem_filter hx)
    case isFalse =>
      simp only [Option.some.injEq] at h
      subst h
      exact ⟨hwf, hinv⟩

theorem runOps_good (step : Int) (ops : List Op) (s s2 : State)
    (hwf : wf s) (hinv : pendingInv s) (h : runOps step ops s = some s2) :
    wf s2 ∧ pendingInv s2 := by
  induction ops generalizing s with
  | nil =>
    simp only [runOps, Option.some.injEq] at h
    subst h
    exact ⟨hwf, hinv⟩
  | cons op rest ih =>
    simp only [runOps] at h
    cases ho : applyOp step op s with
    | none =>
      rw [ho] at h
      exact Option.noConfusion h
    | some r =>
      rw [ho] at h
      have hg := applyOp_good step op s r hwf hinv ho
      exact ih r.1 hg.1 hg.2 h

theorem mkState_good (start : Int) : wf (mkState start) ∧ pendingInv (mkState start) := by
  refine ⟨⟨?_, ?_, ?_, ?_⟩, ?_, ?_⟩ <;> simp [mkState]

/-! ### Monotonicity of the current time -/

theorem applyOp_t_mono (step : Int) (op : Op) (s : State) (r : State × List Int)
    (hstep : 0 ≤ step) (h : applyOp step op s = some r) : s.t ≤ r.1.t := by
  cases op with
  | now =>
    simp only [applyOp, Clock.now, Option.some.injEq] at h
    subst h
    rw [doOp_t]
    show s.t ≤ s.t + step
    omega
  | peek =>
    simp only [applyOp, peek_eq, Option.some.injEq] at h
    subst h
    exact le_refl s.t
  | advance delta =>
    simp only [applyOp, Clock.add] at h
    split at h
    · exact Option.noConfusion h
    case isFalse hdel =>
      simp only [Option.some.injEq] at h
      subst h
      rw [doOp_t]
      show s.t ≤ s.t + delta
      omega
  | newTimer d =>
    simp only [applyOp, Option.some.injEq] at h
    subst h
    exact le_refl s.t
  | newTicker d =>
    by_cases hd : d ≤ 0
    · simp only [applyOp, Clock.newTicker, if_pos hd] at h
      exact Option.noConfusion h
    · simp only [applyOp, Clock.newTicker, if_neg hd, Option.some.injEq] at h
      subst h
      exact le_refl s.t
  | resetTimer tid d =>
    simp only [applyOp] at h
    split at h <;> simp only [Option.some.injEq] at h <;> subst h <;> exact le_refl s.t
  | stopTimer tid =>
    simp only [applyOp] at h
    split at h
    case isTrue hlt =>
      simp only [Option.some.injEq] at h
      subst h
      simp only [Timer.stop]
      rw [doOp_t]
    case isFalse =>
      simp only [Option.some.injEq] at h
      subst h
      exact le_refl s.t
  | stopTicker kid =>
    simp only [applyOp] at h
    split at h
    case isTrue hlt =>
      simp only [Option.some.injEq] at h
      subst h
      show s.t ≤ ((Ticker.stop kid s).1).t
      unfold Ticker.stop
      rw [doOp_t]
    case isFalse =>
      simp only [Option.some.injEq] at h
      subst h
      exact le_refl s.t

theorem runOps_t_mono (step : Int) (ops : List Op) (s s2 : State)
    (hstep : 0 ≤ step) (h : runOps step ops s = some s2) : s.t ≤ s2.t := by
  induction ops generalizing s with
  | nil =>
    simp only [runOps, Option.some.injEq] at h
    subst h
    exact le_refl s.t
  | cons op rest ih =>
    simp only [runOps] at h
    cases ho : applyOp step op s with
    | none =>
      rw [ho] at h
      exact Option.noConfusion h
    | some r =>
      rw [ho] at h
      exact le_trans (applyOp_t_mono step op s r hstep ho) (ih r.1 h)

/-! ### Single-timer advancement scenario -/

theorem sum_nonneg_list (l : List Int) (h : ∀ a ∈ l, 0 ≤ a) : 0 ≤ l.sum := by
  induction l with
  | nil => simp
  | cons a rest ih =>
    have ha : 0 ≤ a := h a (List.mem_cons_self _ _)
    have hr : 0 ≤ rest.sum := ih (fun x hx => h x (List.mem_cons_of_mem _ hx))
    simp only [List.sum_cons]
    omega

theorem not_mem_removeId (l : List Nat) (tid : Nat) : tid ∉ removeId l tid := by
  simp [removeId]

theorem mem_addTimerId (l : List Nat) (tid : Nat) : tid ∈ addTimerId l tid := by
  unfold addTimerId
  split
  · assumption
  · simp

theorem advances_append (l1 l2 : List Int) (s : State) :
    advances (l1 ++ l2) s = match advances l1 s with
      | none => none
      | some s1 => advances l2 s1 := by
  induction l1 generalizing s with
  | nil => rfl
  | cons a rest ih =>
    simp only [List.cons_append, advances]
    cases h : Clock.add a s with
    | none => rfl
    | some r => exact ih r.1

/-- State of a clock holding exactly one pending timer `tid` armed for `T + d`,
with empty channel, after a cumulative advancement of `cum` from `T`. -/
def preP (T d cum : Int) (tid : Nat) (s : State) : Prop :=
  s.t = T + cum ∧ s.timers = [tid] ∧ s.timerOf tid = ⟨T + d, false, none⟩ ∧ s.tickers = []

/-- State after timer `tid` fired with value `v`: deregistered, fired, value
in the channel. -/
def postQ (T d v : Int) (tid : Nat) (s : State) : Prop :=
  s.timers = [] ∧ s.timerOf tid = ⟨T + d, true, some v⟩ ∧ s.tickers = []

theorem preP_add (T d cum a : Int) (tid : Nat) (s : State) (h : preP T d cum tid s)
    (ha : 0 ≤ a) (hlt : cum + a < d) :
    ∃ r, Clock.add a s = some r ∧ preP T d (cum + a) tid r.1 := by
  obtain ⟨h1, h2, h3, h4⟩ := h
  refine ⟨Clock.doOp (fun x => { x with t := x.t + a }) s,
    by simp [Clock.add, show ¬a < 0 by omega], ?_⟩
  by_cases hz : s.t + a = s.t
  · rw [doOp_self _ _ (show (({ s with t := s.t + a } : State)).t = s.t from hz)]
    refine ⟨?_, h2, h3, h4⟩
    show s.t + a = T + (cum + a)
    omega
  · rw [doOp_ne _ _ (show (({ s with t := s.t + a } : State)).t ≠ s.t from hz)]
    have hupd : Timer.update (s.timerOf tid) (s.t + a) = (s.timerOf tid, false) := by
      rw [h3]
      simp [Timer.update]
      omega
    have hrun : runTimers (s.t + a) s.timerOf [tid] =
        (setFn s.timerOf tid (s.timerOf tid), [tid]) := by
      simp [runTimers, hupd]
    refine ⟨?_, ?_, ?_, h4⟩
    · show s.t + a = T + (cum + a)
      omega
    · show (runTimers (s.t + a) s.timerOf s.timers).2 = [tid]
      rw [h2, hrun]
    · show (runTimers (s.t + a) s.timerOf s.timers).1 tid = ⟨T + d, false, none⟩
      rw [h2, hrun]
      simp [setFn, h3]

theorem preP_advances (T d : Int) (xs : List Int) (cum : Int) (tid : Nat) (s : State)
    (h : preP T d cum tid s) (hxs : ∀ a ∈ xs, 0 ≤ a) (hsum : cum + xs.sum < d) :
    ∃ s2, advances xs s = some s2 ∧ preP T d (cum + xs.sum) tid s2 := by
  induction xs generalizing cum s with
  | nil => exact ⟨s, rfl, by simpa using h⟩
  | cons a rest ih =>
    have ha : 0 ≤ a := hxs a (List.mem_cons_self _ _)
    have hrest : ∀ x ∈ rest, 0 ≤ x := fun x hx => hxs x (List.mem_cons_of_mem _ hx)
    have hrs : 0 ≤ rest.sum := sum_nonneg_list rest hrest
    have hsc : (a :: rest).sum = a + rest.sum := List.sum_cons
    obtain ⟨r, hr, hpr⟩ := preP_add T d cum a tid s h ha (by omega)
    obtain ⟨s2, hs2, hps2⟩ := ih (cum + a) r.1 hpr hrest (by omega)
    refine ⟨s2, ?_, ?_⟩
    · show advances (a :: rest) s = some s2
      simp only [advances]
      rw [hr]
      exact hs2
    · have he : cum + (a :: rest).sum = cum + a + rest.sum := by
        rw [hsc]
        ring
      rw [he]
      exact hps2

theorem preP_cross (T d cum y : Int) (tid : Nat) (s : State) (h : preP T d cum tid s)
    (hy : 0 ≤ y) (hcross : d ≤ cum + y) (hlt : cum < d) :
    ∃ r, Clock.add y s = some r ∧ postQ T d (T + (cum + y)) tid r.1 := by
  obtain ⟨h1, h2, h3, h4⟩ := h
  have hyne : ¬(s.t + y = s.t) := by omega
  refine ⟨Clock.doOp (fun x => { x with t := x.t + y }) s,
    by simp [Clock.add, show ¬y < 0 by omega], ?_⟩
  rw [doOp_ne _ _ (show (({ s with t := s.t + y } : State)).t ≠ s.t from hyne)]
  have hupd : Timer.update (s.timerOf tid) (s.t + y) =
      (⟨T + d, true, some (s.t + y)⟩, true) := by
    rw [h3]
    simp [Timer.update, Timer.fire, chanSend, show ¬s.t + y < T + d by omega]
  have hrun : runTimers (s.t + y) s.timerOf [tid] =
      (setFn s.timerOf tid ⟨T + d, true, some (s.t + y)⟩, []) := by
    simp [runTimers, hupd]
  refine ⟨?_, ?_, h4⟩
  · show (runTimers (s.t + y) s.timerOf s.timers).2 = []
    rw [h2, hrun]
  · show (runTimers (s.t + y) s.timerOf s.timers).1 tid = ⟨T + d, true, some (T + (cum + y))⟩
    rw [h2, hrun]
    have hv : s.t + y = T + (cum + y) := by omega
    simp [setFn, hv]

theorem postQ_advances (T d v : Int) (zs : List Int) (tid : Nat) (s : State)
    (h : postQ T d v tid s) (hzs : ∀ a ∈ zs, 0 ≤ a) :
    ∃ s2, advances zs s = some s2 ∧ postQ T d v tid s2 := by
  induction zs generalizing s with
  | nil => exact ⟨s, rfl, h⟩
  | cons a rest ih =>
    obtain ⟨h1, h2, h3⟩ := h
    have ha : 0 ≤ a := hzs a (List.mem_cons_self _ _)
    have hone : ∃ r, Clock.add a s = some r ∧ postQ T d v tid r.1 := by
      refine ⟨Clock.doOp (fun x => { x with t := x.t + a }) s,
        by simp [Clock.add, show ¬a < 0 by omega], ?_⟩
      by_cases hz : s.t + a = s.t
      · rw [doOp_self _ _ (show (({ s with t := s.t + a } : State)).t = s.t from hz)]
        exact ⟨h1, h2, h3⟩
      · rw [doOp_ne _ _ (show (({ s with t := s.t + a } : State)).t ≠ s.t from hz)]
        refine ⟨?_, ?_, h3⟩
        · show (runTimers (s.t + a) s.timerOf s.timers).2 = []
          rw [h1]
          rfl
        · show (runTimers (s.t + a) s.timerOf s.timers).1 tid = ⟨T + d, true, some v⟩
          rw [h1]
          exact h2
    obtain ⟨r, hr, hpr⟩ := hone
    obtain ⟨s2, hs2, hps2⟩ := ih r.1 hpr (fun x hx => hzs x (List.mem_cons_of_mem _ hx))
    refine ⟨s2, ?_, hps2⟩
    show advances (a :: rest) s = some s2
    simp only [advances]
    rw [hr]
    exact hs2

/-! ### Claim theorems -/

/-- C1 counterexample: the claim as stated is false at a concrete input.  A
timer with duration `d = 5` created at `T = 0` and advanced by a single
`Advance(7)` — the first call whose cumulative total reaches or passes
`T + d = 5` — leaves the channel holding `7` (the clock's current time at the
firing call), not `T + d = 5`. -/
theorem C1_timer_value_counterexample :
    (((advances [7] ((Clock.newTimer 5 (mkState 0)).2.1)).getD (mkState 0)).timerOf
        (Clock.newTimer 5 (mkState 0)).1).chan = some 7 ∧
    (7 : Int) ≠ (mkState 0).t + 5 := by
  constructor
  · rfl
  · decide

/-- C1 (amended): a timer created with duration `d > 0` at time `T` delivers
nothing while the cumulative advancement stays below `d`, and once an
`Advance` call first makes the cumulative advancement reach or pass `d` the
channel holds exactly one value, equal to the clock's current time at the end
of that call (`T` plus the cumulative advancement through it); later advances
deliver nothing further. -/
theorem C1_timer_single_delivery (T d : Int) (xs : List Int) (y : Int) (zs : List Int)
    (hd : 0 < d) (hxs : ∀ a ∈ xs, 0 ≤ a) (hy : 0 ≤ y) (hzs : ∀ a ∈ zs, 0 ≤ a)
    (hlt : xs.sum < d) (hge : d ≤ xs.sum + y) :
    (∃ s2, advances xs ((Clock.newTimer d (mkState T)).2.1) = some s2 ∧
      (s2.timerOf (Clock.newTimer d (mkState T)).1).chan = none ∧
      (s2.timerOf (Clock.newTimer d (mkState T)).1).fired = false) ∧
    (∃ s3, advances (xs ++ y :: zs) ((Clock.newTimer d (mkState T)).2.1) = some s3 ∧
      (s3.timerOf (Clock.newTimer d (mkState T)).1).chan = some (T + (xs.sum + y)) ∧
      (s3.timerOf (Clock.newTimer d (mkState T)).1).fired = true) := by
  have hs1 : (Clock.newTimer d (mkState T)).2.1 = State.mk T [0] []
      (setFn (fun _ => ⟨0, false, none⟩) 0 ⟨T + d, false, none⟩)
      (fun _ => ⟨0, 0, none⟩) 1 0 := by
    simp [Clock.newTimer, Timer.init, hd, mkState]
  have hP : preP T d 0 0 ((Clock.newTimer d (mkState T)).2.1) := by
    rw [hs1]
    refine ⟨?_, rfl, ?_, rfl⟩
    · show T = T + 0
      omega
    · simp [setFn]
  obtain ⟨s2, hadv2, hp2⟩ := preP_advances T d xs 0 0 _ hP hxs (by omega)
  rw [zero_add] at hp2
  constructor
  · refine ⟨s2, hadv2, ?_, ?_⟩
    · show (s2.timerOf 0).chan = none
      rw [hp2.2.2.1]
    · show (s2.timerOf 0).fired = false
      rw [hp2.2.2.1]
  · obtain ⟨r, hry, hqr⟩ := preP_cross T d xs.sum y 0 s2 hp2 hy hge hlt
    obtain ⟨s3, hadv3, hq3⟩ := postQ_advances T d (T + (xs.sum + y)) zs 0 r.1 hqr hzs
    refine ⟨s3, ?_, ?_, ?_⟩
    · rw [advances_append, hadv2]
      show advances (y :: zs) s2 = some s3
      simp only [advances]
      rw [hry]
      exact hadv3
    · show (s3.timerOf 0).chan = some (T + (xs.sum + y))
      rw [hq3.2.1]
    · show (s3.timerOf 0).fired = true
      rw [hq3.2.1]

/-- Witness for C1 at `T = 0`, `d = 5`, advances `[3]`, `4`, `[2]`. -/
theorem C1_timer_single_delivery_witness :
    (∃ s2, advances [3] ((Clock.newTimer 5 (mkState 0)).2.1) = some s2 ∧
      (s2.timerOf (Clock.newTimer 5 (mkState 0)).1).chan = none ∧
      (s2.timerOf (Clock.newTimer 5 (mkState 0)).1).fired = false) ∧
    (∃ s3, advances ([3] ++ 4 :: [2]) ((Clock.newTimer 5 (mkState 0)).2.1) = some s3 ∧
      (s3.timerOf (Clock.newTimer 5 (mkState 0)).1).chan = some (0 + (List.sum [3] + 4)) ∧
      (s3.timerOf (Clock.newTimer 5 (mkState 0)).1).fired = true) :=
  C1_timer_single_delivery 0 5 [3] 4 [2] (by omega) (by decide) (by omega) (by decide)
    (by decide) (by decide)

/-- C2: a pending ticker with period `p > 0`, when a single `Advance` call
crosses its deadline (one or more periods elapsed), delivers exactly once
within that call — the watch-argument list of the call is `[p]` and the
channel receives exactly one non-blocking send of the new current time
(`chanSend`, stored when the slot is empty, dropped when full) — and its next
deadline is fast-forwarded by repeated addition of `p` strictly past the
current time. -/
theorem C2_ticker_coalesced_delivery (s : State) (kid : Nat) (p next delta : Int)
    (ch : Option Int)
    (hk : s.tickers = [kid])
    (htk : s.tickerOf kid = ⟨p, next, ch⟩)
    (hp : 0 < p)
    (hpend : s.t < next)
    (hdelta : 0 ≤ delta)
    (hcross : next ≤ s.t + delta) :
    ∃ r, Clock.add delta s = some r ∧
      r.2 = [p] ∧
      (r.1.tickerOf kid).chan = chanSend ch (s.t + delta) ∧
      (r.1.tickerOf kid).next = fastForward next p (s.t + delta) ∧
      s.t + delta < (r.1.tickerOf kid).next := by
  have hne : (({ s with t := s.t + delta } : State)).t ≠ s.t := by
    show s.t + delta ≠ s.t
    omega
  have hupd : Ticker.update (s.tickerOf kid) (s.t + delta) =
      (⟨p, fastForward next p (s.t + delta), chanSend ch (s.t + delta)⟩, p) := by
    rw [htk]
    simp [Ticker.update, show ¬s.t + delta < next by omega]
  have hrun : runTickers (s.t + delta) s.tickerOf [kid] =
      (setFn s.tickerOf kid
        ⟨p, fastForward next p (s.t + delta), chanSend ch (s.t + delta)⟩, [p]) := by
    simp [runTickers, hupd, show p ≠ 0 by omega]
  refine ⟨Clock.doOp (fun x => { x with t := x.t + delta }) s,
    by simp [Clock.add, show ¬delta < 0 by omega], ?_, ?_, ?_, ?_⟩
  · rw [doOp_ne _ _ hne]
    show (runTickers (s.t + delta) s.tickerOf s.tickers).2 = [p]
    rw [hk, hrun]
  · rw [doOp_ne _ _ hne]
    show ((runTickers (s.t + delta) s.tickerOf s.tickers).1 kid).chan =
      chanSend ch (s.t + delta)
    rw [hk, hrun]
    simp [setFn]
  · rw [doOp_ne _ _ hne]
    show ((runTickers (s.t + delta) s.tickerOf s.tickers).1 kid).next =
      fastForward next p (s.t + delta)
    rw [hk, hrun]
    simp [setFn]
  · rw [doOp_ne _ _ hne]
    show s.t + delta < ((runTickers (s.t + delta) s.tickerOf s.tickers).1 kid).next
    rw [hk, hrun]
    simp only [setFn, if_pos rfl]
    exact lt_fastForward next (s.t + delta) hp

/-- Witness for C2: period 25 ticker created at time 0, advanced by 77
(crossing three deadlines) delivers once with value 77. -/
theorem C2_ticker_coalesced_delivery_witness :
    ∃ r, Clock.add 77 (((Clock.newTicker 25 (mkState 0)).getD (0, mkState 0, [])).2.1) =
        some r ∧
      r.2 = [(25 : Int)] ∧
      (r.1.tickerOf 0).chan =
        chanSend none ((((Clock.newTicker 25 (mkState 0)).getD (0, mkState 0, [])).2.1).t + 77) ∧
      (r.1.tickerOf 0).next =
        fastForward 25 25 ((((Clock.newTicker 25 (mkState 0)).getD (0, mkState 0, [])).2.1).t + 77) ∧
      (((Clock.newTicker 25 (mkState 0)).getD (0, mkState 0, [])).2.1).t + 77 <
        (r.1.tickerOf 0).next :=
  C2_ticker_coalesced_delivery _ 0 25 25 77 none (by decide) (by decide) (by decide)
    (by decide) (by decide) (by decide)

/-- C3: `Peek` returns the current time and leaves the whole state unchanged
(time, pending timers, pending tickers), so two consecutive `Peek` calls
agree; and for `delta ≥ 0`, `Advance(delta)` succeeds and `Peek` afterwards
equals `Peek` before plus `delta`. -/
theorem C3_peek_advance_algebra (s : State) (delta : Int) (hdelta : 0 ≤ delta) :
    Clock.peek s = (s.t, s, []) ∧
    (Clock.peek ((Clock.peek s).2.1)).1 = (Clock.peek s).1 ∧
    ∃ r, Clock.add delta s = some r ∧ (Clock.peek r.1).1 = (Clock.peek s).1 + delta := by
  refine ⟨peek_eq s, by simp [peek_eq], ?_⟩
  refine ⟨Clock.doOp (fun x => { x with t := x.t + delta }) s, ?_, ?_⟩
  · simp [Clock.add, show ¬delta < 0 by omega]
  · show ((Clock.doOp (fun x => { x with t := x.t + delta }) s).1).t = s.t + delta
    rw [doOp_t]

/-- Witness for C3 at time 5, `delta = 3`. -/
theorem C3_peek_advance_algebra_witness :
    Clock.peek (mkState 5) = ((5 : Int), mkState 5, []) ∧
    (Clock.peek ((Clock.peek (mkState 5)).2.1)).1 = (Clock.peek (mkState 5)).1 ∧
    ∃ r, Clock.add 3 (mkState 5) = some r ∧
      (Clock.peek r.1).1 = (Clock.peek (mkState 5)).1 + 3 :=
  C3_peek_advance_algebra (mkState 5) 3 (by omega)

/-- C4: on a state where the fired flag agrees with pending membership (true
of every reachable timer handle), `Reset(d)` returns true exactly when the
timer was still pending; when `d > 0` the timer is re-armed for
`currentTime + d` (channel untouched) and registered pending, registration
being a no-op if already pending; when `d ≤ 0` it fires immediately (marked
fired, non-blocking send of `currentTime`) and is deregistered. -/
theorem C4_reset_timer_spec (s : State) (tid : Nat) (d : Int)
    (hlink : (s.timerOf tid).fired = false ↔ tid ∈ s.timers) :
    ((Timer.reset tid d s).1 = true ↔ tid ∈ s.timers) ∧
    (0 < d →
      (Timer.reset tid d s).2.1.timerOf tid = ⟨s.t + d, false, (s.timerOf tid).chan⟩ ∧
      (Timer.reset tid d s).2.1.timers = addTimerId s.timers tid ∧
      tid ∈ (Timer.reset tid d s).2.1.timers) ∧
    (d ≤ 0 →
      (Timer.reset tid d s).2.1.timerOf tid =
        ⟨s.t, true, chanSend (s.timerOf tid).chan s.t⟩ ∧
      tid ∉ (Timer.reset tid d s).2.1.timers) := by
  refine ⟨?_, fun hd => ?_, fun hd => ?_⟩
  · rw [show (Timer.reset tid d s).1 = !(s.timerOf tid).fired from rfl, Bool.not_eq_true']
    exact hlink
  · have hp : Timer.init (s.timerOf tid) s.t d =
        (⟨s.t + d, false, (s.timerOf tid).chan⟩, true) := by
      simp [Timer.init, hd]
    have h1 : (Timer.reset tid d s).2.1.timerOf tid = (Timer.init (s.timerOf tid) s.t d).1 := by
      show setFn s.timerOf tid (Timer.init (s.timerOf tid) s.t d).1 tid = _
      simp [setFn]
    have h2 : (Timer.reset tid d s).2.1.timers = addTimerId s.timers tid := by
      show (if (Timer.init (s.timerOf tid) s.t d).2 then addTimerId s.timers tid
        else removeId s.timers tid) = addTimerId s.timers tid
      rw [hp]
      simp
    refine ⟨?_, h2, ?_⟩
    · rw [h1, hp]
    · rw [h2]
      exact mem_addTimerId s.timers tid
  · have hp : Timer.init (s.timerOf tid) s.t d =
        (⟨s.t, true, chanSend (s.timerOf tid).chan s.t⟩, false) := by
      simp [Timer.init, show ¬0 < d by omega, Timer.fire]
    have h1 : (Timer.reset tid d s).2.1.timerOf tid = (Timer.init (s.timerOf tid) s.t d).1 := by
      show setFn s.timerOf tid (Timer.init (s.timerOf tid) s.t d).1 tid = _
      simp [setFn]
    have h2 : (Timer.reset tid d s).2.1.timers = removeId s.timers tid := by
      show (if (Timer.init (s.timerOf tid) s.t d).2 then addTimerId s.timers tid
        else removeId s.timers tid) = removeId s.timers tid
      rw [hp]
      simp
    refine ⟨?_, ?_⟩
    · rw [h1, hp]
    · rw [h2]
      exact not_mem_removeId s.timers tid

/-- Witness for C4 on a freshly created pending timer. -/
theorem C4_reset_timer_spec_witness :
    (Timer.reset 0 3 ((Clock.newTimer 5 (mkState 0)).2.1)).1 = true ↔
      0 ∈ ((Clock.newTimer 5 (mkState 0)).2.1).timers :=
  (C4_reset_timer_spec ((Clock.newTimer 5 (mkState 0)).2.1) 0 3 (by decide)).1

/-- C5: on a state where the fired flag agrees with pending membership (true
of every reachable timer handle), `Stop()` marks the timer fired and removes
it from pending, returns true exactly when it was still pending, leaves the
channel contents unchanged, and any later `Advance` leaves the stopped
timer's record (channel included) untouched. -/
theorem C5_stop_timer_spec (s : State) (tid : Nat)
    (hlink : (s.timerOf tid).fired = false ↔ tid ∈ s.timers) :
    ((Timer.stop tid s).1 = true ↔ tid ∈ s.timers) ∧
    ((Timer.stop tid s).2.1.timerOf tid).fired = true ∧
    tid ∉ (Timer.stop tid s).2.1.timers ∧
    ((Timer.stop tid s).2.1.timerOf tid).chan = (s.timerOf tid).chan ∧
    (∀ delta, 0 ≤ delta → ∃ r, Clock.add delta ((Timer.stop tid s).2.1) = some r ∧
      r.1.timerOf tid = (Timer.stop tid s).2.1.timerOf tid) := by
  have hts : (Timer.stop tid s).2.1 = State.mk s.t (removeId s.timers tid) s.tickers
      (setFn s.timerOf tid ⟨(s.timerOf tid).time, true, (s.timerOf tid).chan⟩) s.tickerOf
      s.nextTimerId s.nextTickerId := by
    simp only [Timer.stop]
    rw [doOp_self _ _ rfl]
  refine ⟨?_, ?_, ?_, ?_, ?_⟩
  · rw [show (Timer.stop tid s).1 = !(s.timerOf tid).fired from rfl, Bool.not_eq_true']
    exact hlink
  · rw [hts]
    show (setFn s.timerOf tid ⟨(s.timerOf tid).time, true, (s.timerOf tid).chan⟩ tid).fired
      = true
    simp [setFn]
  · rw [hts]
    exact not_mem_removeId s.timers tid
  · rw [hts]
    show (setFn s.timerOf tid ⟨(s.timerOf tid).time, true, (s.timerOf tid).chan⟩ tid).chan
      = (s.timerOf tid).chan
    simp [setFn]
  · intro delta hdelta
    rw [hts]
    refine ⟨Clock.doOp (fun x => { x with t := x.t + delta })
        (State.mk s.t (removeId s.timers tid) s.tickers
          (setFn s.timerOf tid ⟨(s.timerOf tid).time, true, (s.timerOf tid).chan⟩)
          s.tickerOf s.nextTimerId s.nextTickerId),
      by simp [Clock.add, show ¬delta < 0 by omega], ?_⟩
    by_cases hz : s.t + delta = s.t
    · rw [doOp_self _ _ (show s.t + delta = s.t from hz)]
    · rw [doOp_ne _ _ (show s.t + delta ≠ s.t from hz)]
      show (runTimers (s.t + delta)
          (setFn s.timerOf tid ⟨(s.timerOf tid).time, true, (s.timerOf tid).chan⟩)
          (removeId s.timers tid)).1 tid =
        setFn s.timerOf tid ⟨(s.timerOf tid).time, true, (s.timerOf tid).chan⟩ tid
      rw [runTimers_notMem _ _ _ tid (not_mem_removeId s.timers tid)]

/-- Witness for C5 on a freshly created pending timer. -/
theorem C5_stop_timer_spec_witness :
    (Timer.stop 0 ((Clock.newTimer 5 (mkState 0)).2.1)).1 = true ↔
      0 ∈ ((Clock.newTimer 5 (mkState 0)).2.1).timers :=
  (C5_stop_timer_spec ((Clock.newTimer 5 (mkState 0)).2.1) 0 (by decide)).1

/-- C6: `NewTimer(d)` always records exactly one watch call with argument
`d`; and for `d ≤ 0` the new timer fires immediately — its channel holds the
clock's current time, it is marked fired, and the pending list is unchanged
(the timer is not registered). -/
theorem C6_newTimer_immediate (s : State) (d : Int) :
    (Clock.newTimer d s).2.2 = [d] ∧
    (d ≤ 0 →
      ((Clock.newTimer d s).2.1.timerOf (Clock.newTimer d s).1).chan = some s.t ∧
      ((Clock.newTimer d s).2.1.timerOf (Clock.newTimer d s).1).fired = true ∧
      (Clock.newTimer d s).2.1.timers = s.timers) := by
  refine ⟨rfl, fun hd => ?_⟩
  have hts : (Clock.newTimer d s).2.1 = State.mk s.t s.timers s.tickers
      (setFn s.timerOf s.nextTimerId ⟨s.t, true, some s.t⟩) s.tickerOf
      (s.nextTimerId + 1) s.nextTickerId := by
    simp [Clock.newTimer, Timer.init, show ¬0 < d by omega, Timer.fire, chanSend]
  rw [hts]
  refine ⟨?_, ?_, rfl⟩
  · show (setFn s.timerOf s.nextTimerId ⟨s.t, true, some s.t⟩ s.nextTimerId).chan = some s.t
    simp [setFn]
  · show (setFn s.timerOf s.nextTimerId ⟨s.t, true, some s.t⟩ s.nextTimerId).fired = true
    simp [setFn]

/-- Witness for C6 at `d = -2`. -/
theorem C6_newTimer_immediate_witness :
    ((Clock.newTimer (-2) (mkState 4)).2.1.timerOf (Clock.newTimer (-2) (mkState 4)).1).chan
      = some (mkState 4).t :=
  ((C6_newTimer_immediate (mkState 4) (-2)).2 (by omega)).1

/-- C7: exactly three precondition violations panic — a negative step at
construction, a negative delta to `Advance`, and a non-positive duration to
`NewTicker`; every other call of every operation returns normally. -/
theorem C7_precondition_panics (start stepc step : Int) (op : Op) (s : State) :
    (NewWithStep start stepc = none ↔ stepc < 0) ∧
    (applyOp step op s = none ↔
      (∃ delta, op = Op.advance delta ∧ delta < 0) ∨
      (∃ d, op = Op.newTicker d ∧ d ≤ 0)) := by
  constructor
  · by_cases hc : stepc < 0 <;> simp [NewWithStep, hc]
  · cases op with
    | now => simp [applyOp]
    | peek => simp [applyOp]
    | advance delta =>
      simp only [applyOp, Clock.add]
      by_cases hdel : delta < 0
      · simp [hdel]
      · simp [hdel]
    | newTimer d => simp [applyOp]
    | newTicker d =>
      simp only [applyOp, Clock.newTicker]
      by_cases hd : d ≤ 0
      · simp [hd]
      · simp [hd]
    | resetTimer tid d =>
      simp only [applyOp]
      split <;> simp
    | stopTimer tid =>
      simp only [applyOp]
      split <;> simp
    | stopTicker kid =>
      simp only [applyOp]
      split <;> simp

/-- Witness for C7: a trivially closed instance at `stepc = -1`, `op = Op.peek`. -/
theorem C7_precondition_panics_witness :
    (NewWithStep 0 (-1) = none ↔ (-1 : Int) < 0) ∧
    (applyOp 0 Op.peek (mkState 0) = none ↔
      (∃ delta, Op.peek = Op.advance delta ∧ delta < 0) ∨
      (∃ d, Op.peek = Op.newTicker d ∧ d ≤ 0)) :=
  C7_precondition_panics 0 (-1) 0 Op.peek (mkState 0)

/-- C8: with a construction step `≥ 0`, the current time is monotonically
non-decreasing — across any single completed operation and across any
completed operation sequence. -/
theorem C8_currentTime_monotone (step : Int) (hstep : 0 ≤ step) :
    (∀ (op : Op) (s : State) (r : State × List Int),
      applyOp step op s = some r → s.t ≤ r.1.t) ∧
    (∀ (ops : List Op) (s s2 : State), runOps step ops s = some s2 → s.t ≤ s2.t) :=
  ⟨fun op s r h => applyOp_t_mono step op s r hstep h,
   fun ops s s2 h => runOps_t_mono step ops s s2 hstep h⟩

/-- Witness for C8 on a two-operation run with step 1. -/
theorem C8_currentTime_monotone_witness :
    (mkState 2).t ≤ ((runOps 1 [Op.now, Op.advance 5] (mkState 2)).getD (mkState 2)).t :=
  (C8_currentTime_monotone 1 (by omega)).2 [Op.now, Op.advance 5] (mkState 2)
    ((runOps 1 [Op.now, Op.advance 5] (mkState 2)).getD (mkState 2)) (by rfl)

/-- C9: on a clock with a nonzero (positive) step, `Now` returns the current
time and then behaves exactly like an explicit `Advance(step)`: the resulting
state and the watch-argument list coincide with those of `Clock.Add step`,
so due timers fire and due tickers deliver and reschedule. -/
theorem C9_now_notifies_like_advance (step : Int) (s : State)
    (_hnz : step ≠ 0) (hnn : 0 ≤ step) :
    (Clock.now step s).1 = s.t ∧ Clock.add step s = some (Clock.now step s).2 := by
  refine ⟨rfl, ?_⟩
  simp [Clock.add, Clock.now, show ¬step < 0 by omega]

/-- Witness for C9: a clock holding a due timer, observed through `Now` with
step 7. -/
theorem C9_now_notifies_like_advance_witness :
    (Clock.now 7 ((Clock.newTimer 5 (mkState 0)).2.1)).1 =
      ((Clock.newTimer 5 (mkState 0)).2.1).t ∧
    Clock.add 7 ((Clock.newTimer 5 (mkState 0)).2.1) =
      some (Clock.now 7 ((Clock.newTimer 5 (mkState 0)).2.1)).2 :=
  C9_now_notifies_like_advance 7 ((Clock.newTimer 5 (mkState 0)).2.1) (by omega) (by omega)

/-- C10: starting from a clock built by `NewWithStep`, after every completed
operation sequence each pending timer is unfired with target strictly beyond
the current time, and each pending ticker has a positive period and a
deadline strictly beyond the current time. -/
theorem C10_pending_invariant (start step : Int) (c : Int × State) (ops : List Op)
    (s2 : State) (hnew : NewWithStep start step = some c)
    (hrun : runOps c.1 ops c.2 = some s2) : pendingInv s2 := by
  have hc : c.2 = mkState start := by
    unfold NewWithStep at hnew
    split at hnew
    · exact Option.noConfusion hnew
    · simp only [Option.some.injEq] at hnew
      rw [← hnew]
  rw [hc] at hrun
  exact (runOps_good c.1 ops (mkState start) s2 (mkState_good start).1
    (mkState_good start).2 hrun).2

/-- Witness for C10 on a concrete run creating a timer and a ticker and
advancing past both deadlines. -/
theorem C10_pending_invariant_witness :
    pendingInv ((runOps 0 [Op.newTimer 5, Op.newTicker 3, Op.advance 4]
      (mkState 0)).getD (mkState 0)) :=
  C10_pending_invariant 0 0 (0, mkState 0) [Op.newTimer 5, Op.newTicker 3, Op.advance 4]
    ((runOps 0 [Op.newTimer 5, Op.newTicker 3, Op.advance 4] (mkState 0)).getD (mkState 0))
    (by rfl) (by rfl)
